import Mathlib

/-!
Verification of the `shadcn-multi-select` component (`src/multi-select.tsx`).

The component keeps its selection in a JavaScript `Map` built from the
`values` prop keyed by `getId` (line 93), toggles selection by copying the
map and deleting or inserting (lines 96-106), measures badge overflow with a
backwards linear scan over the rendered badges (lines 191-209), and renders
either a placeholder, or one badge per map entry plus an optional overflow
badge (lines 211-249).

JavaScript `Map` semantics are modelled by an insertion-ordered association
list: `set` on an existing key updates the value in place (keeping the
position of the key), `set` on a fresh key appends at the end, `delete` removes
the (unique) entry with the key, and iteration follows the list order.
-/

namespace MultiSelect

/-- Insertion-ordered association list modelling a JavaScript `Map<string, T>`. -/
abbrev JMap (T : Type) := List (String × T)

/-- Model of `m.has(k)` of a JavaScript `Map`. -/
def mapHas {T : Type} (m : JMap T) (k : String) : Bool :=
  m.any (fun e => e.1 == k)

/-- Model of `m.set(k, v)` of a JavaScript `Map`: update in place if the key exists
(the entry keeps its position), otherwise append at the end. -/
def mapSet {T : Type} : JMap T → String → T → JMap T
  | [], k, v => [(k, v)]
  | (k', v') :: rest, k, v =>
      if k' = k then (k, v) :: rest else (k', v') :: mapSet rest k v

/-- Model of `m.delete(k)` of a JavaScript `Map`: remove the entry with key `k`
(keys of a real `Map` are unique, so removing the first match is exact). -/
def mapDelete {T : Type} : JMap T → String → JMap T
  | [], _ => []
  | (k', v') :: rest, k =>
      if k' = k then rest else (k', v') :: mapDelete rest k

/-- Model of `m.get(k)` of a JavaScript `Map`. -/
def mapGet? {T : Type} : JMap T → String → Option T
  | [], _ => none
  | (k', v') :: rest, k => if k' = k then some v' else mapGet? rest k

/-- Model of `[...m.values()]` of a JavaScript `Map`: the values in insertion order. -/
def mapValues {T : Type} (m : JMap T) : List T :=
  m.map Prod.snd

/-- Model of `[...m.keys()]` of a JavaScript `Map`: the keys in insertion order. -/
def keys {T : Type} (m : JMap T) : List String :=
  m.map Prod.fst

/-- Line 93: `const selectedMap = new Map(values.map((v) => [getId(v), v]))`.
The `Map` constructor inserts the pairs left to right with `set`. -/
def buildMap {T : Type} (getId : T → String) (values : List T) : JMap T :=
  values.foldl (fun m v => mapSet m (getId v) v) []

/-- Lines 96-104, the body of `toggleValue` acting on an already-built map:
copy the map, delete the entry if the id is present, otherwise insert the
value under its id, and report `[...next.values()]`. -/
def toggleMap {T : Type} (getId : T → String) (m : JMap T) (v : T) : List T :=
  let id := getId v
  let next := if mapHas m id then mapDelete m id else mapSet m id v
  mapValues next

/-- Lines 93-106: `toggleValue` as observed through `onValuesChange`,
starting from the `values` prop. -/
def toggleValue {T : Type} (getId : T → String) (values : List T) (v : T) :
    List T :=
  toggleMap getId (buildMap getId values) v

/-- Every entry of the map stores a value under the id of that value. -/
def wellKeyed {T : Type} (getId : T → String) (m : JMap T) : Prop :=
  ∀ e ∈ m, e.1 = getId e.2

/- ----------------------------------------------------------------
Basic lemmas about the Map model.
---------------------------------------------------------------- -/

@[simp] theorem mapHas_nil {T : Type} (k : String) :
    mapHas ([] : JMap T) k = false := rfl

@[simp] theorem mapHas_cons {T : Type} (k' : String) (v' : T) (rest : JMap T)
    (k : String) :
    mapHas ((k', v') :: rest) k = ((k' == k) || mapHas rest k) := rfl

@[simp] theorem keys_nil {T : Type} : keys ([] : JMap T) = [] := rfl

@[simp] theorem keys_cons {T : Type} (k' : String) (v' : T) (rest : JMap T) :
    keys ((k', v') :: rest) = k' :: keys rest := rfl

@[simp] theorem mapValues_nil {T : Type} : mapValues ([] : JMap T) = [] := rfl

@[simp] theorem mapValues_cons {T : Type} (k' : String) (v' : T)
    (rest : JMap T) : mapValues ((k', v') :: rest) = v' :: mapValues rest := rfl

theorem mapHas_iff {T : Type} (m : JMap T) (k : String) :
    mapHas m k = true ↔ k ∈ keys m := by
  induction m with
  | nil => simp
  | cons e rest ih =>
      obtain ⟨k', v'⟩ := e
      simp only [mapHas_cons, Bool.or_eq_true, beq_iff_eq, keys_cons,
        List.mem_cons, ih]
      constructor
      · rintro (h | h)
        · exact Or.inl h.symm
        · exact Or.inr h
      · rintro (h | h)
        · exact Or.inl h.symm
        · exact Or.inr h

theorem mapSet_of_not_has {T : Type} (m : JMap T) (k : String) (v : T)
    (h : mapHas m k = false) : mapSet m k v = m ++ [(k, v)] := by
  induction m with
  | nil => simp [mapSet]
  | cons e rest ih =>
      obtain ⟨k', v'⟩ := e
      rw [mapHas_cons, Bool.or_eq_false_iff] at h
      have hk : ¬ k' = k := by simpa using h.1
      simp [mapSet, hk, ih h.2]

theorem keys_mapSet {T : Type} (m : JMap T) (k : String) (v : T) :
    keys (mapSet m k v) = if mapHas m k then keys m else keys m ++ [k] := by
  induction m with
  | nil => simp [mapSet]
  | cons e rest ih =>
      obtain ⟨k', v'⟩ := e
      by_cases hk : k' = k
      · subst hk
        simp [mapSet]
      · have hkk : (k' == k) = false := by simpa using hk
        rw [show mapSet ((k', v') :: rest) k v = (k', v') :: mapSet rest k v by
          simp [mapSet, hk]]
        cases hh : mapHas rest k with
        | true => simp [hh, hkk, ih]
        | false => simp [hh, hkk, ih]

theorem keys_mapDelete {T : Type} (m : JMap T) (k : String) :
    keys (mapDelete m k) = (keys m).erase k := by
  induction m with
  | nil => simp [mapDelete]
  | cons e rest ih =>
      obtain ⟨k', v'⟩ := e
      by_cases hk : k' = k
      · subst hk
        simp [mapDelete, List.erase_cons_head]
      · have hkk : ¬ (k' == k) = true := by simpa using hk
        simp [mapDelete, hk, List.erase_cons_tail, hkk, ih]

theorem mapDelete_subset {T : Type} (m : JMap T) (k : String) :
    ∀ e ∈ mapDelete m k, e ∈ m := by
  induction m with
  | nil => simp [mapDelete]
  | cons e rest ih =>
      obtain ⟨k', v'⟩ := e
      by_cases hk : k' = k
      · subst hk
        simp [mapDelete]
        intro a b hab
        exact Or.inr hab
      · intro x hx
        rw [show mapDelete ((k', v') :: rest) k = (k', v') :: mapDelete rest k
          from by simp [mapDelete, hk]] at hx
        rcases List.mem_cons.mp hx with h | h
        · subst h
          exact List.mem_cons_self _ _
        · exact List.mem_cons_of_mem _ (ih x h)

theorem mapGet?_mapSet {T : Type} (m : JMap T) (k k' : String) (v : T) :
    mapGet? (mapSet m k v) k' = if k' = k then some v else mapGet? m k' := by
  induction m with
  | nil =>
      by_cases h : k' = k
      · simp [mapSet, mapGet?, h]
      · have h2 : ¬ k = k' := fun hh => h hh.symm
        simp [mapSet, mapGet?, h, h2]
  | cons e rest ih =>
      obtain ⟨a, b⟩ := e
      by_cases ha : a = k
      · by_cases h : k' = k
        · simp [mapSet, mapGet?, ha, h]
        · have h2 : ¬ k = k' := fun hh => h hh.symm
          have h3 : ¬ a = k' := by rw [ha]; exact h2
          simp [mapSet, mapGet?, ha, h, h2, h3]
      · by_cases h : a = k'
        · have h4 : ¬ k' = k := by rw [← h]; exact ha
          simp [mapSet, mapGet?, ha, h, h4]
        · simp [mapSet, mapGet?, ha, h, ih]

theorem buildMap_concat {T : Type} (getId : T → String) (vs : List T) (v : T) :
    buildMap getId (vs ++ [v]) = mapSet (buildMap getId vs) (getId v) v := by
  simp [buildMap, List.foldl_append]

theorem mapGet?_buildMap {T : Type} (getId : T → String) (values : List T)
    (k : String) :
    mapGet? (buildMap getId values) k =
      values.reverse.find? (fun v => getId v == k) := by
  induction values using List.reverseRecOn with
  | nil => simp [buildMap, mapGet?]
  | append_singleton vs v ih =>
      rw [buildMap_concat, mapGet?_mapSet]
      by_cases h : getId v = k
      · simp [h]
      · have h2 : ¬ k = getId v := fun hh => h hh.symm
        simp [h, h2, ih]

/-- Deduplication of a list of ids keeping the first occurrence of each id,
in first-occurrence order: the reference description of the key order of a
JavaScript `Map` built by repeated insertion. -/
def firstOccurrenceIds (ids : List String) : List String :=
  ids.foldl (fun acc k => if k ∈ acc then acc else acc ++ [k]) []

theorem keys_foldl_mapSet {T : Type} (getId : T → String) (vs : List T) :
    ∀ m : JMap T,
      keys (vs.foldl (fun m v => mapSet m (getId v) v) m) =
        (vs.map getId).foldl
          (fun acc k => if k ∈ acc then acc else acc ++ [k]) (keys m) := by
  induction vs with
  | nil => intro m; simp
  | cons v vs ih =>
      intro m
      rw [List.foldl_cons, List.map_cons, List.foldl_cons, ih]
      by_cases h : getId v ∈ keys m
      · rw [keys_mapSet]
        simp [h, (mapHas_iff m (getId v)).mpr h]
      · have hh : mapHas m (getId v) = false := by
          cases hb : mapHas m (getId v) with
          | true => exact absurd ((mapHas_iff m (getId v)).mp hb) h
          | false => rfl
        rw [keys_mapSet]
        simp [h, hh]

theorem keys_buildMap {T : Type} (getId : T → String) (values : List T) :
    keys (buildMap getId values) = firstOccurrenceIds (values.map getId) := by
  rw [buildMap, keys_foldl_mapSet, firstOccurrenceIds, keys_nil]

theorem mem_keys_buildMap {T : Type} (getId : T → String) (values : List T)
    (k : String) :
    k ∈ keys (buildMap getId values) ↔ k ∈ values.map getId := by
  rw [keys_buildMap]
  have main : ∀ (ids : List String) (acc : List String),
      k ∈ ids.foldl (fun acc k => if k ∈ acc then acc else acc ++ [k]) acc ↔
        k ∈ acc ∨ k ∈ ids := by
    intro ids
    induction ids with
    | nil => intro acc; simp
    | cons i ids ih =>
        intro acc
        rw [List.foldl_cons, ih]
        by_cases h : i ∈ acc
        · simp only [h, if_pos]
          constructor
          · rintro (ha | hi)
            · exact Or.inl ha
            · exact Or.inr (List.mem_cons_of_mem _ hi)
          · rintro (ha | hi)
            · exact Or.inl ha
            · rcases List.mem_cons.mp hi with rfl | hi
              · exact Or.inl h
              · exact Or.inr hi
        · simp only [h, if_neg, not_false_iff, List.mem_append,
            List.mem_singleton]
          constructor
          · rintro ((ha | rfl) | hi)
            · exact Or.inl ha
            · exact Or.inr (List.mem_cons_self _ _)
            · exact Or.inr (List.mem_cons_of_mem _ hi)
          · rintro (ha | hi)
            · exact Or.inl (Or.inl ha)
            · rcases List.mem_cons.mp hi with rfl | hi
              · exact Or.inl (Or.inr rfl)
              · exact Or.inr hi
  rw [firstOccurrenceIds, main]
  simp

theorem mapHas_buildMap {T : Type} (getId : T → String) (values : List T)
    (k : String) :
    mapHas (buildMap getId values) k = true ↔ k ∈ values.map getId := by
  rw [mapHas_iff, mem_keys_buildMap]

theorem nodup_keys_buildMap {T : Type} (getId : T → String) (values : List T) :
    (keys (buildMap getId values)).Nodup := by
  have main : ∀ (vs : List T) (m : JMap T), (keys m).Nodup →
      (keys (vs.foldl (fun m v => mapSet m (getId v) v) m)).Nodup := by
    intro vs
    induction vs with
    | nil => intro m hm; simpa using hm
    | cons v vs ih =>
        intro m hm
        rw [List.foldl_cons]
        apply ih
        rw [keys_mapSet]
        cases hb : mapHas m (getId v) with
        | true => simpa using hm
        | false =>
            have hnm : getId v ∉ keys m := fun hmem =>
              by rw [(mapHas_iff m (getId v)).mpr hmem] at hb; cases hb
            simp [List.nodup_append, hm, hnm]
  exact main values [] (by simp)

theorem wellKeyed_buildMap {T : Type} (getId : T → String) (values : List T) :
    wellKeyed getId (buildMap getId values) := by
  have hset : ∀ (m : JMap T) (v : T), wellKeyed getId m →
      wellKeyed getId (mapSet m (getId v) v) := by
    intro m v hm
    induction m with
    | nil =>
        intro e he
        simp [mapSet] at he
        subst he
        rfl
    | cons p rest ih =>
        obtain ⟨a, b⟩ := p
        intro e he
        by_cases ha : a = getId v
        · rw [show mapSet ((a, b) :: rest) (getId v) v = (getId v, v) :: rest
            from by simp [mapSet, ha]] at he
          rcases List.mem_cons.mp he with rfl | hmem
          · rfl
          · exact hm e (List.mem_cons_of_mem _ hmem)
        · rw [show mapSet ((a, b) :: rest) (getId v) v =
              (a, b) :: mapSet rest (getId v) v
            from by simp [mapSet, ha]] at he
          rcases List.mem_cons.mp he with rfl | hmem
          · exact hm (a, b) (List.mem_cons_self _ _)
          · exact ih (fun e' he' => hm e' (List.mem_cons_of_mem _ he')) e hmem
  have main : ∀ (vs : List T) (m : JMap T), wellKeyed getId m →
      wellKeyed getId (vs.foldl (fun m v => mapSet m (getId v) v) m) := by
    intro vs
    induction vs with
    | nil => intro m hm; simpa using hm
    | cons v vs ih =>
        intro m hm
        rw [List.foldl_cons]
        exact ih _ (hset m v hm)
  exact main values [] (by intro e he; cases he)

theorem mapValues_append {T : Type} (m m' : JMap T) :
    mapValues (m ++ m') = mapValues m ++ mapValues m' := by
  simp [mapValues]

theorem mapDelete_of_not_has {T : Type} (m : JMap T) (k : String)
    (h : mapHas m k = false) : mapDelete m k = m := by
  induction m with
  | nil => rfl
  | cons e rest ih =>
      obtain ⟨k', v'⟩ := e
      rw [mapHas_cons, Bool.or_eq_false_iff] at h
      have hk : ¬ k' = k := by simpa using h.1
      simp [mapDelete, hk, ih h.2]

theorem mapHas_mapDelete_self {T : Type} (m : JMap T) (k : String)
    (h : (keys m).Nodup) : mapHas (mapDelete m k) k = false := by
  induction m with
  | nil => rfl
  | cons e rest ih =>
      obtain ⟨k', v'⟩ := e
      rw [keys_cons, List.nodup_cons] at h
      by_cases hk : k' = k
      · subst hk
        rw [show mapDelete ((k', v') :: rest) k' = rest from by
          simp [mapDelete]]
        cases hb : mapHas rest k' with
        | true => exact absurd ((mapHas_iff rest k').mp hb) h.1
        | false => rfl
      · have hkk : (k' == k) = false := by simpa using hk
        rw [show mapDelete ((k', v') :: rest) k = (k', v') :: mapDelete rest k
          from by simp [mapDelete, hk]]
        rw [mapHas_cons, hkk, Bool.false_or]
        exact ih h.2

theorem mapValues_mapDelete {T : Type} (getId : T → String) (m : JMap T)
    (k : String) (hw : wellKeyed getId m) (hn : (keys m).Nodup) :
    mapValues (mapDelete m k) = (mapValues m).filter
      (fun w => !(getId w == k)) := by
  induction m with
  | nil => rfl
  | cons e rest ih =>
      obtain ⟨k', v'⟩ := e
      have hk' : k' = getId v' := hw (k', v') (List.mem_cons_self _ _)
      have hwrest : wellKeyed getId rest := fun e he =>
        hw e (List.mem_cons_of_mem _ he)
      rw [keys_cons, List.nodup_cons] at hn
      by_cases hk : k' = k
      · subst hk
        rw [show mapDelete ((k', v') :: rest) k' = rest from by
          simp [mapDelete]]
        rw [mapValues_cons, List.filter_cons]
        have : (!(getId v' == k')) = false := by simp [hk']
        rw [this]
        simp only [Bool.false_eq_true, if_false]
        have hall : ∀ w ∈ mapValues rest, (!(getId w == k')) = true := by
          intro w hwmem
          rcases List.mem_map.mp hwmem with ⟨e, he, rfl⟩
          have := hwrest e he
          have hne : getId e.2 ≠ k' := by
            intro hc
            apply hn.1
            have h1 : e.1 = k' := by rw [this, hc]
            have h2 : e.1 ∈ keys rest := List.mem_map_of_mem Prod.fst he
            rwa [h1] at h2
          simp [hne]
        rw [List.filter_eq_self.mpr hall]
      · have hkk : ¬ (getId v' == k) = true := by
          rw [← hk']
          simpa using hk
        rw [show mapDelete ((k', v') :: rest) k = (k', v') :: mapDelete rest k
          from by simp [mapDelete, hk]]
        rw [mapValues_cons, mapValues_cons, List.filter_cons]
        have : (!(getId v' == k)) = true := by simpa using hkk
        rw [this]
        simp only [if_true]
        rw [ih hwrest hn.2]

theorem toggleMap_spec {T : Type} (getId : T → String) (m : JMap T) (v : T)
    (hw : wellKeyed getId m) (hn : (keys m).Nodup) :
    toggleMap getId m v =
      if mapHas m (getId v)
      then (mapValues m).filter (fun w => !(getId w == getId v))
      else mapValues m ++ [v] := by
  unfold toggleMap
  cases hb : mapHas m (getId v) with
  | true =>
      simp only [hb, if_true]
      exact mapValues_mapDelete getId m (getId v) hw hn
  | false =>
      simp only [hb, Bool.false_eq_true, if_false]
      rw [mapSet_of_not_has m (getId v) v hb, mapValues_append]
      rfl

theorem mapSet_ne_nil {T : Type} (m : JMap T) (k : String) (v : T) :
    mapSet m k v ≠ [] := by
  cases m with
  | nil => simp [mapSet]
  | cons e rest =>
      obtain ⟨k', v'⟩ := e
      by_cases hk : k' = k
      · simp [mapSet, hk]
      · simp [mapSet, hk]

theorem foldl_mapSet_ne_nil {T : Type} (getId : T → String) (vs : List T) :
    ∀ m : JMap T, m ≠ [] →
      vs.foldl (fun m v => mapSet m (getId v) v) m ≠ [] := by
  induction vs with
  | nil => intro m hm; simpa using hm
  | cons v vs ih =>
      intro m hm
      rw [List.foldl_cons]
      exact ih _ (mapSet_ne_nil m (getId v) v)

theorem buildMap_eq_nil_iff {T : Type} (getId : T → String) (values : List T) :
    buildMap getId values = [] ↔ values = [] := by
  constructor
  · intro h
    cases values with
    | nil => rfl
    | cons v vs =>
        exfalso
        apply foldl_mapSet_ne_nil getId vs (mapSet [] (getId v) v)
          (mapSet_ne_nil [] (getId v) v)
        simpa [buildMap] using h
  · rintro rfl
    rfl

theorem mapSet_append_of_notin {T : Type} (acc m' : JMap T) (k : String)
    (v : T) (h : k ∉ keys acc) :
    mapSet (acc ++ m') k v = acc ++ mapSet m' k v := by
  induction acc with
  | nil => simp
  | cons e rest ih =>
      obtain ⟨k', v'⟩ := e
      rw [keys_cons, List.mem_cons] at h
      push_neg at h
      have hk : ¬ k' = k := fun hh => h.1 hh.symm
      rw [List.cons_append,
        show mapSet ((k', v') :: (rest ++ m')) k v =
          (k', v') :: mapSet (rest ++ m') k v from by simp [mapSet, hk],
        ih h.2, List.cons_append]

theorem foldl_mapSet_append {T : Type} (getId : T → String) (vs : List T) :
    ∀ acc m' : JMap T, (∀ v ∈ vs, getId v ∉ keys acc) →
      vs.foldl (fun m v => mapSet m (getId v) v) (acc ++ m') =
        acc ++ vs.foldl (fun m v => mapSet m (getId v) v) m' := by
  induction vs with
  | nil => intro acc m' _; simp
  | cons v vs ih =>
      intro acc m' h
      rw [List.foldl_cons, List.foldl_cons,
        mapSet_append_of_notin acc m' (getId v) v
          (h v (List.mem_cons_self _ _))]
      exact ih acc _ (fun w hw => h w (List.mem_cons_of_mem _ hw))

theorem buildMap_mapValues {T : Type} (getId : T → String) (m : JMap T)
    (hw : wellKeyed getId m) (hn : (keys m).Nodup) :
    buildMap getId (mapValues m) = m := by
  induction m with
  | nil => rfl
  | cons e rest ih =>
      obtain ⟨k, w⟩ := e
      have hk : k = getId w := hw (k, w) (List.mem_cons_self _ _)
      have hwrest : wellKeyed getId rest := fun e he =>
        hw e (List.mem_cons_of_mem _ he)
      rw [keys_cons, List.nodup_cons] at hn
      rw [mapValues_cons, show buildMap getId (w :: mapValues rest) =
        (mapValues rest).foldl (fun m v => mapSet m (getId v) v)
          ([(getId w, w)] ++ []) from by simp [buildMap, mapSet]]
      rw [foldl_mapSet_append getId (mapValues rest) [(getId w, w)] []]
      · rw [show (mapValues rest).foldl (fun m v => mapSet m (getId v) v) [] =
          buildMap getId (mapValues rest) from rfl, ih hwrest hn.2]
        simp [hk]
      · intro v hv
        rcases List.mem_map.mp hv with ⟨e, he, rfl⟩
        have heq : e.1 = getId e.2 := hwrest e he
        have hmem : e.1 ∈ keys rest := List.mem_map_of_mem Prod.fst he
        rw [keys_cons]
        simp only [List.mem_singleton, keys_nil]
        intro hc
        apply hn.1
        rw [← hk] at hc
        rw [← heq] at hc
        rwa [hc] at hmem

theorem buildMap_of_nodup_ids {T : Type} (getId : T → String)
    (values : List T) (h : (values.map getId).Nodup) :
    buildMap getId values = values.map (fun v => (getId v, v)) := by
  induction values with
  | nil => rfl
  | cons v vs ih =>
      rw [List.map_cons, List.nodup_cons] at h
      rw [show buildMap getId (v :: vs) =
        vs.foldl (fun m v => mapSet m (getId v) v) ([(getId v, v)] ++ [])
        from by simp [buildMap, mapSet]]
      rw [foldl_mapSet_append getId vs [(getId v, v)] []]
      · rw [show vs.foldl (fun m v => mapSet m (getId v) v) [] =
          buildMap getId vs from rfl, ih h.2]
        simp
      · intro w hw
        rw [keys_cons]
        simp only [List.mem_singleton, keys_nil]
        intro hc
        exact h.1 (hc ▸ List.mem_map_of_mem getId hw)

theorem mapValues_buildMap_of_nodup {T : Type} (getId : T → String)
    (values : List T) (h : (values.map getId).Nodup) :
    mapValues (buildMap getId values) = values := by
  rw [buildMap_of_nodup_ids getId values h]
  have hcomp : (Prod.snd ∘ fun v : T => (getId v, v)) = id := by
    funext v
    rfl
  rw [mapValues, List.map_map, hcomp, List.map_id]

/- ----------------------------------------------------------------
Overflow measurement (MultiSelectValue, lines 187-209).

Badge display states are a `List Bool`: `true` is visible
(`el.style.display = ""`), `false` is hidden (`display = "none"`).
`fits vis` abstracts the DOM measurement
`container.scrollWidth <= container.clientWidth` when the badges have
display states `vis`.
---------------------------------------------------------------- -/

/-- Lines 203-207: `for (let i = childrenEls.length - 1; i >= 0; i--) {
if (container.scrollWidth <= container.clientWidth) break;
childrenEls[i].style.display = "none"; hidden++; }`.
The first argument of the recursion is the loop counter plus one, so
`overflowLoop fits (i+1) vis` runs the body at index `i`. Returns the
final `hidden` counter and the final display states. -/
def overflowLoop (fits : List Bool → Bool) : Nat → List Bool → Nat × List Bool
  | 0, vis => (0, vis)
  | i + 1, vis =>
      if fits vis then (0, vis)
      else
        let r := overflowLoop fits i (vis.set i false)
        (r.1 + 1, r.2)

/-- Lines 191-209, the whole effect body given the display states `vis0`
left over from the previous run: when wrapping it sets the overflow amount
to 0 and touches no badge; otherwise it resets every badge to visible
(`childrenEls.forEach((el) => (el.style.display = ""))`) and runs the
backwards scan. Returns `(overflowAmount, display states)`. -/
def runOverflowEffect (sw : Bool) (fits : List Bool → Bool)
    (vis0 : List Bool) : Nat × List Bool :=
  if sw then (0, vis0)
  else overflowLoop fits vis0.length (List.replicate vis0.length true)

/-- Display states of `n` badges of which the trailing `j` are hidden. -/
def hiddenState (n j : Nat) : List Bool :=
  List.replicate (n - j) true ++ List.replicate j false

theorem set_replicate_append (i : Nat) (tail : List Bool) :
    (List.replicate (i + 1) true ++ tail).set i false =
      List.replicate i true ++ false :: tail := by
  induction i with
  | zero => rfl
  | succ i ih =>
      rw [List.replicate_succ, List.cons_append,
        show ((true :: (List.replicate (i + 1) true ++ tail)).set (i + 1) false)
          = true :: ((List.replicate (i + 1) true ++ tail).set i false)
          from rfl,
        ih, List.replicate_succ, List.cons_append]

theorem overflowLoop_spec (fits : List Bool → Bool) (n : Nat) :
    ∀ i : Nat, i ≤ n →
      ∃ h vis, overflowLoop fits i (hiddenState n (n - i)) = (h, vis) ∧
        h ≤ i ∧
        vis = hiddenState n (n - i + h) ∧
        (∀ j : Nat, n - i ≤ j → j < n - i + h →
          fits (hiddenState n j) = false) ∧
        (h < i → fits (hiddenState n (n - i + h)) = true) := by
  intro i
  induction i with
  | zero =>
      intro _
      refine ⟨0, hiddenState n (n - 0), rfl, le_refl 0, by rw [Nat.add_zero],
        ?_, ?_⟩
      · intro j h1 h2
        omega
      · intro h
        omega
  | succ i ih =>
      intro hi
      cases hf : fits (hiddenState n (n - (i + 1))) with
      | true =>
          refine ⟨0, hiddenState n (n - (i + 1)),
            by simp [overflowLoop, hf], Nat.zero_le _, by simp, ?_, ?_⟩
          · intro j h1 h2
            omega
          · intro _
            rw [Nat.add_zero]
            exact hf
      | false =>
          have hkey : (hiddenState n (n - (i + 1))).set i false =
              hiddenState n (n - i) := by
            have e1 : n - (n - (i + 1)) = i + 1 := by omega
            have e2 : n - (i + 1) + 1 = n - i := by omega
            have e3 : n - (n - i) = i := by omega
            rw [hiddenState, e1, set_replicate_append, hiddenState, e3,
              show (false :: List.replicate (n - (i + 1)) false) =
                List.replicate (n - (i + 1) + 1) false from rfl, e2]
          obtain ⟨h, vis, heq, hle, hvis, hprev, hstop⟩ :=
            ih (Nat.le_of_succ_le hi)
          refine ⟨h + 1, vis, ?_, by omega, ?_, ?_, ?_⟩
          · simp [overflowLoop, hf, hkey, heq]
          · rw [hvis]
            have : n - i + h = n - (i + 1) + (h + 1) := by omega
            rw [this]
          · intro j h1 h2
            rcases Nat.lt_or_ge j (n - i) with hlt | hge
            · have hj : j = n - (i + 1) := by omega
              rw [hj]
              exact hf
            · exact hprev j hge (by omega)
          · intro hlt
            have : n - (i + 1) + (h + 1) = n - i + h := by omega
            rw [this]
            exact hstop (by omega)

theorem hiddenState_zero (n : Nat) :
    hiddenState n 0 = List.replicate n true := by
  simp [hiddenState]

theorem overflowLoop_run (fits : List Bool → Bool) (n : Nat) :
    ∃ h vis, overflowLoop fits n (List.replicate n true) = (h, vis) ∧
      h ≤ n ∧ vis = hiddenState n h ∧
      (∀ j : Nat, j < h → fits (hiddenState n j) = false) ∧
      (h < n → fits (hiddenState n h) = true) := by
  obtain ⟨h, vis, heq, hle, hvis, hprev, hstop⟩ :=
    overflowLoop_spec fits n n (le_refl n)
  refine ⟨h, vis, ?_, hle, ?_, ?_, ?_⟩
  · rw [← heq]
    congr 1
    rw [show n - n = 0 from by omega, hiddenState_zero]
  · rw [hvis]
    congr 1
    omega
  · intro j hj
    exact hprev j (by omega) (by omega)
  · intro hlt
    have hs := hstop (by omega)
    rwa [show n - n + h = h from by omega] at hs

theorem countP_hidden_hiddenState (n h : Nat) :
    (hiddenState n h).countP (fun b => !b) = h := by
  simp [hiddenState, List.countP_append, List.countP_replicate]

theorem length_hiddenState (n h : Nat) (hle : h ≤ n) :
    (hiddenState n h).length = n := by
  simp [hiddenState]
  omega

/- ----------------------------------------------------------------
Rendering model of MultiSelectValue (lines 171-250) and
MultiSelectContent (lines 256-288).
---------------------------------------------------------------- -/

/-- The `overflowBehavior` prop (line 179). -/
inductive OverflowBehavior where
  | wrap
  | wrapWhenOpen
  | cutoff
deriving DecidableEq

/-- Lines 187-189: `shouldWrap = overflowBehavior === "wrap" ||
(overflowBehavior === "wrap-when-open" && open)`. -/
def shouldWrap : OverflowBehavior → Bool → Bool
  | .wrap, _ => true
  | .wrapWhenOpen, isOpen => isOpen
  | .cutoff, _ => false

/-- The click handler attached to a badge (lines 229-236):
`(e) => { e.stopPropagation(); toggleValue(value); }`. -/
structure ClickAction (T : Type) where
  stopsPropagation : Bool
  toggles : T
deriving DecidableEq

/-- One rendered `Badge` for a selected entry (lines 223-243). `R` is the
abstract output type of `renderItem`. -/
structure BadgeView (T R : Type) where
  id : String
  content : R
  onClick : Option (ClickAction T)
  showRemoveIcon : Bool

/-- What MultiSelectValue returns: the placeholder span (lines 211-212) or
the badge row with an optional `+N` overflow badge (lines 214-249). -/
inductive ValueView (T R : Type) where
  | placeholder (text : Option String)
  | badges (items : List (BadgeView T R)) (overflowBadge : Option Nat)

/-- Lines 211-249: the render of MultiSelectValue given the current
`overflowAmount` state. One badge per `selectedMap` entry in map order,
each rendering `renderItem(value, true)`, with a remove handler exactly
when `clickToRemove`; the `+N` badge is rendered exactly when
`overflowAmount > 0 && !shouldWrap`. -/
def renderValue {T R : Type} (getId : T → String) (renderItem : T → Bool → R)
    (values : List T) (placeholderText : Option String) (clickToRemove : Bool)
    (behavior : OverflowBehavior) (isOpen : Bool) (overflowAmount : Nat) :
    ValueView T R :=
  let selectedMap := buildMap getId values
  let sw := shouldWrap behavior isOpen
  if selectedMap.length = 0 then ValueView.placeholder placeholderText
  else
    ValueView.badges
      (selectedMap.map (fun e =>
        { id := e.1
          content := renderItem e.2 true
          onClick := if clickToRemove then some ⟨true, e.2⟩ else none
          showRemoveIcon := clickToRemove }))
      (if 0 < overflowAmount ∧ sw = false then some overflowAmount else none)

/-- The overflow badge of a render result, if any. -/
def overflowBadgeOf {T R : Type} : ValueView T R → Option Nat
  | .placeholder _ => none
  | .badges _ ov => ov

/-- The `search` prop of MultiSelectContent (line 260):
`boolean | { placeholder?: string; emptyMessage?: string }`. -/
inductive SearchProp where
  | flag (b : Bool)
  | config (placeholder : Option String) (emptyMessage : Option String)

/-- Line 264: `canSearch = typeof search === "object" || search`. -/
def canSearch : SearchProp → Bool
  | .config _ _ => true
  | .flag b => b

/-- Line 90: `searchValue = inputValue ?? internalSearch`. -/
def searchValue (inputValue : Option String) (internalSearch : String) :
    String :=
  inputValue.getD internalSearch

/-- Line 91: `setSearchValue = onInputChange ?? setInternalSearch`.
`H` is the abstract effect type of an edit handler. -/
def setSearchValue {H : Type} (onInputChange : Option (String → H))
    (setInternalSearch : String → H) : String → H :=
  onInputChange.getD setInternalSearch

/-- The rendered `CommandInput` (lines 270-276): its displayed value and
its edit handler. -/
structure CommandInputView (H : Type) where
  value : String
  onValueChange : String → H

/-- Lines 269-277: `{canSearch && <CommandInput value={searchValue}
onValueChange={setSearchValue} ... />}`. -/
def contentSearchInput {H : Type} (search : SearchProp) (sv : String)
    (setSv : String → H) : Option (CommandInputView H) :=
  if canSearch search then some ⟨sv, setSv⟩ else none

/- ----------------------------------------------------------------
Reference-level model of toggleValue (lines 96-106) for the mutation
claim: a heap of Map objects addressed by allocation index, so that
`new Map(...)`, `next.delete` and `next.set` act on explicit references.
---------------------------------------------------------------- -/

structure MapHeap (T : Type) where
  cells : List (JMap T)

def heapGet {T : Type} (h : MapHeap T) (r : Nat) : JMap T :=
  h.cells.getD r []

def heapAlloc {T : Type} (h : MapHeap T) (m : JMap T) : MapHeap T × Nat :=
  (⟨h.cells ++ [m]⟩, h.cells.length)

def heapUpdate {T : Type} (h : MapHeap T) (r : Nat) (m : JMap T) : MapHeap T :=
  ⟨h.cells.set r m⟩

/-- Lines 96-104 with explicit Map objects: `const next = new Map(selectedMap)`
allocates a fresh copy of the map at `selRef`; `next.delete(id)` and
`next.set(id, val)` mutate only that fresh copy; the reported list is
`[...next.values()]`. -/
def toggleValueHeap {T : Type} (getId : T → String) (h : MapHeap T)
    (selRef : Nat) (v : T) : MapHeap T × List T :=
  let id := getId v
  let p := heapAlloc h (heapGet h selRef)
  let h1 := p.1
  let nextRef := p.2
  let next := heapGet h1 nextRef
  let h2 := if mapHas next id then heapUpdate h1 nextRef (mapDelete next id)
            else heapUpdate h1 nextRef (mapSet next id v)
  (h2, mapValues (heapGet h2 nextRef))

theorem getD_concat_self {T : Type} (l : List (JMap T)) (x : JMap T) :
    (l ++ [x]).getD l.length [] = x := by
  rw [List.getD_append_right _ _ _ _ (le_refl _)]
  simp

theorem set_concat_self {T : Type} (l : List (JMap T)) (x y : JMap T) :
    (l ++ [x]).set l.length y = l ++ [y] := by
  rw [List.set_append_right _ _ (le_refl _)]
  simp

theorem toggleValueHeap_spec {T : Type} (getId : T → String) (h : MapHeap T)
    (selRef : Nat) (v : T) :
    (toggleValueHeap getId h selRef v).1.cells =
      h.cells ++ [if mapHas (heapGet h selRef) (getId v)
                  then mapDelete (heapGet h selRef) (getId v)
                  else mapSet (heapGet h selRef) (getId v) v] ∧
    (toggleValueHeap getId h selRef v).2 =
      toggleMap getId (heapGet h selRef) v := by
  have e1 : (h.cells ++ [h.cells.getD selRef []]).getD h.cells.length [] =
      h.cells.getD selRef [] := getD_concat_self _ _
  constructor
  · simp only [toggleValueHeap, heapAlloc, heapGet, heapUpdate]
    rw [e1]
    cases hb : mapHas (h.cells.getD selRef []) (getId v) with
    | true => simp [hb, set_concat_self]
    | false => simp [hb, set_concat_self]
  · simp only [toggleValueHeap, heapAlloc, heapGet, heapUpdate, toggleMap]
    rw [e1]
    cases hb : mapHas (h.cells.getD selRef []) (getId v) with
    | true => simp [hb, set_concat_self, getD_concat_self]
    | false => simp [hb, set_concat_self, getD_concat_self]

theorem mapHas_append {T : Type} (m m' : JMap T) (k : String) :
    mapHas (m ++ m') k = (mapHas m k || mapHas m' k) := by
  simp [mapHas, List.any_append]

theorem mapDelete_concat_of_not_has {T : Type} (m : JMap T) (k : String)
    (x : T) (h : mapHas m k = false) : mapDelete (m ++ [(k, x)]) k = m := by
  induction m with
  | nil => simp [mapDelete]
  | cons e rest ih =>
      obtain ⟨a, b⟩ := e
      rw [mapHas_cons, Bool.or_eq_false_iff] at h
      have ha : ¬ a = k := by simpa using h.1
      rw [List.cons_append,
        show mapDelete ((a, b) :: (rest ++ [(k, x)])) k =
          (a, b) :: mapDelete (rest ++ [(k, x)]) k from by
            simp [mapDelete, ha],
        ih h.2]

theorem mapGet?_eq_of_mem {T : Type} (m : JMap T) (k : String) (w : T)
    (hmem : (k, w) ∈ m) (hn : (keys m).Nodup) : mapGet? m k = some w := by
  induction m with
  | nil => cases hmem
  | cons e rest ih =>
      obtain ⟨a, b⟩ := e
      rw [keys_cons, List.nodup_cons] at hn
      rcases List.mem_cons.mp hmem with heq | hmem'
      · injection heq with h1 h2
        subst h1
        subst h2
        simp [mapGet?]
      · have ha : ¬ a = k := by
          intro hc
          apply hn.1
          rw [hc]
          exact List.mem_map_of_mem Prod.fst hmem'
        rw [show mapGet? ((a, b) :: rest) k = mapGet? rest k from by
          simp [mapGet?, ha]]
        exact ih hmem' hn.2

theorem wellKeyed_mapDelete {T : Type} (getId : T → String) (m : JMap T)
    (k : String) (hw : wellKeyed getId m) : wellKeyed getId (mapDelete m k) :=
  fun e he => hw e (mapDelete_subset m k e he)

theorem nodup_keys_mapDelete {T : Type} (m : JMap T) (k : String)
    (hn : (keys m).Nodup) : (keys (mapDelete m k)).Nodup := by
  rw [keys_mapDelete]
  exact hn.erase k

theorem buildMap_toggleMap {T : Type} (getId : T → String) (m : JMap T)
    (v : T) (hw : wellKeyed getId m) (hn : (keys m).Nodup) :
    buildMap getId (toggleMap getId m v) =
      if mapHas m (getId v) then mapDelete m (getId v)
      else m ++ [(getId v, v)] := by
  cases hb : mapHas m (getId v) with
  | true =>
      simp only [toggleMap, hb, if_true]
      exact buildMap_mapValues getId _ (wellKeyed_mapDelete getId m _ hw)
        (nodup_keys_mapDelete m _ hn)
  | false =>
      simp only [toggleMap, hb, Bool.false_eq_true, if_false]
      rw [mapSet_of_not_has m _ v hb]
      apply buildMap_mapValues
      · intro e he
        rcases List.mem_append.mp he with h | h
        · exact hw e h
        · rcases List.mem_singleton.mp h with rfl
          rfl
      · rw [show keys (m ++ [(getId v, v)]) = keys m ++ [getId v] from by
          simp [keys]]
        have hni : getId v ∉ keys m := fun hc => by
          rw [(mapHas_iff m (getId v)).mpr hc] at hb
          cases hb
        simp [List.nodup_append, hn, hni]

theorem toggleValue_removes {T : Type} (getId : T → String) (values : List T)
    (v : T) (h : mapHas (buildMap getId values) (getId v) = true) :
    ∀ u ∈ toggleValue getId values v, getId u ≠ getId v := by
  intro u hu
  rw [toggleValue, toggleMap_spec getId _ v (wellKeyed_buildMap getId values)
    (nodup_keys_buildMap getId values)] at hu
  simp only [h, if_true] at hu
  have hp := (List.mem_filter.mp hu).2
  simpa using hp

/- ----------------------------------------------------------------
Claim theorems.
---------------------------------------------------------------- -/

/-- C1: for every selected-values list, id function and value `v`,
`toggleValue v` reports exactly the values of the map built from the
`values` prop keyed by `getId`, toggled by membership: if the map has an
entry under `getId v` that entry is removed and the remaining values keep
their relative order (a filter of the value list of the map), otherwise `v` is
inserted at the end; having such an entry is equivalent to some element of
`values` carrying id `getId v`. -/
theorem claim_C1 {T : Type} (getId : T → String) (values : List T) (v : T) :
    (toggleValue getId values v =
      if mapHas (buildMap getId values) (getId v)
      then (mapValues (buildMap getId values)).filter
             (fun w => !(getId w == getId v))
      else mapValues (buildMap getId values) ++ [v]) ∧
    (mapHas (buildMap getId values) (getId v) = true ↔
      getId v ∈ values.map getId) := by
  constructor
  · rw [toggleValue]
    exact toggleMap_spec getId _ v (wellKeyed_buildMap getId values)
      (nodup_keys_buildMap getId values)
  · exact mapHas_buildMap getId values (getId v)

/-- C2: with wrapping off, the measurement effect first resets every badge
to visible and then scans from the last badge backwards, so the set of
hidden badges is a contiguous trailing suffix (`n - h` visible badges
followed by `h` hidden ones), and the scan stops at the first hidden-count
whose measurement fits: every strictly earlier state did not fit, and if
not every badge was hidden the final state fits. -/
theorem claim_C2 (fits : List Bool → Bool) (vis0 : List Bool) :
    ∃ h vis, runOverflowEffect false fits vis0 = (h, vis) ∧
      h ≤ vis0.length ∧
      vis = List.replicate (vis0.length - h) true ++
        List.replicate h false ∧
      (∀ j : Nat, j < h → fits (hiddenState vis0.length j) = false) ∧
      (h < vis0.length → fits (hiddenState vis0.length h) = true) := by
  obtain ⟨h, vis, heq, hle, hvis, hprev, hstop⟩ :=
    overflowLoop_run fits vis0.length
  refine ⟨h, vis, ?_, hle, ?_, hprev, hstop⟩
  · rw [runOverflowEffect]
    simpa using heq
  · rw [hvis]
    rfl

/-- C2 witness: the general theorem applied to a concrete measurement
(content fits when at most one badge is visible) and three badges; the
scan hides the trailing two badges and the state before the last hide did
not fit. -/
theorem claim_C2_witness :
    runOverflowEffect false (fun v => decide (v.countP (fun b => b) ≤ 1))
      [true, true, true] = (2, [true, false, false]) ∧
    (fun v => decide (v.countP (fun b => b) ≤ 1)) (hiddenState 3 1) =
      false := by
  obtain ⟨h, vis, heq, hle, hvis, hprev, hstop⟩ :=
    claim_C2 (fun v => decide (v.countP (fun b => b) ≤ 1))
      [true, true, true]
  have hval : runOverflowEffect false
      (fun v => decide (v.countP (fun b => b) ≤ 1)) [true, true, true] =
      (2, [true, false, false]) := by decide
  refine ⟨hval, ?_⟩
  injection hval.symm.trans heq with e1 e2
  exact hprev 1 (by omega)

/-- C3: the overflow scan is one linear backwards pass: it hides at most
`n` badges, the final display states contain exactly `h` hidden entries (so
no badge is hidden twice) and keep their length, and the loop terminates
for every measurement — for a measurement that never fits it stops after
hiding every badge. -/
theorem claim_C3 (fits : List Bool → Bool) (vis0 : List Bool) :
    ∃ h vis, runOverflowEffect false fits vis0 = (h, vis) ∧
      h ≤ vis0.length ∧
      vis.countP (fun b => !b) = h ∧
      vis.length = vis0.length ∧
      runOverflowEffect false (fun _ => false) vis0 =
        (vis0.length, List.replicate vis0.length false) := by
  obtain ⟨h, vis, heq, hle, hvis, _, _⟩ := overflowLoop_run fits vis0.length
  refine ⟨h, vis, ?_, hle, ?_, ?_, ?_⟩
  · rw [runOverflowEffect]
    simpa using heq
  · rw [hvis]
    exact countP_hidden_hiddenState vis0.length h
  · rw [hvis]
    exact length_hiddenState vis0.length h hle
  · obtain ⟨h2, vis2, heq2, hle2, hvis2, _, hstop2⟩ :=
      overflowLoop_run (fun _ => false) vis0.length
    have hh2 : h2 = vis0.length := by
      by_contra hne
      have := hstop2 (lt_of_le_of_ne hle2 hne)
      simp at this
    rw [runOverflowEffect]
    simp only [Bool.false_eq_true, if_false]
    rw [heq2, hh2]
    have : vis2 = List.replicate vis0.length false := by
      rw [hvis2, hh2, hiddenState]
      simp
    rw [this]

/-- C3 witness: applying the theorem with a measurement that never fits
and two badges ends with every badge hidden. -/
theorem claim_C3_witness :
    runOverflowEffect false (fun _ => false) [true, true] =
      ([true, true].length, List.replicate [true, true].length false) := by
  obtain ⟨h, vis, _, _, _, _, hnever⟩ :=
    claim_C3 (fun _ => false) [true, true]
  exact hnever

theorem overflowBadgeOf_renderValue {T R : Type} (getId : T → String)
    (renderItem : T → Bool → R) (values : List T) (pt : Option String)
    (ctr : Bool) (behavior : OverflowBehavior) (isOpen : Bool) (oa : Nat) :
    overflowBadgeOf
        (renderValue getId renderItem values pt ctr behavior isOpen oa) =
      if (buildMap getId values).length = 0 then none
      else if 0 < oa ∧ shouldWrap behavior isOpen = false then some oa
      else none := by
  by_cases hz : (buildMap getId values).length = 0
  · simp [renderValue, overflowBadgeOf, hz]
  · simp [renderValue, overflowBadgeOf, hz]

/-- C4: running the measurement effect yields an `overflowAmount` equal to
the exact number of badges the scan hid; feeding it back into the render,
the `+N` overflow badge carries `N = overflowAmount` and is present exactly
when `overflowAmount > 0` and wrapping is off; when wrapping is on
(`overflowBehavior` is `wrap`, or `wrap-when-open` with the popover open)
the effect reports 0 and leaves the display state of every badge untouched. -/
theorem claim_C4 {T R : Type} (getId : T → String) (renderItem : T → Bool → R)
    (values : List T) (placeholderText : Option String) (clickToRemove : Bool)
    (behavior : OverflowBehavior) (isOpen : Bool) (fits : List Bool → Bool)
    (vis0 : List Bool)
    (hlen : vis0.length = (buildMap getId values).length) :
    ∃ h vis,
      runOverflowEffect (shouldWrap behavior isOpen) fits vis0 = (h, vis) ∧
      (shouldWrap behavior isOpen = false → vis.countP (fun b => !b) = h) ∧
      (shouldWrap behavior isOpen = true → h = 0 ∧ vis = vis0) ∧
      overflowBadgeOf (renderValue getId renderItem values placeholderText
          clickToRemove behavior isOpen h) =
        (if 0 < h ∧ shouldWrap behavior isOpen = false then some h
         else none) ∧
      (∀ b : Bool, shouldWrap OverflowBehavior.wrap b = true ∧
        shouldWrap OverflowBehavior.wrapWhenOpen b = b ∧
        shouldWrap OverflowBehavior.cutoff b = false) := by
  cases hsw : shouldWrap behavior isOpen with
  | true =>
      refine ⟨0, vis0, rfl, ?_, fun _ => ⟨rfl, rfl⟩, ?_, ?_⟩
      · intro hc
        cases hc
      · rw [overflowBadgeOf_renderValue]
        by_cases hz : (buildMap getId values).length = 0
        · simp [hz]
        · simp [hz]
      · intro b
        exact ⟨rfl, rfl, rfl⟩
  | false =>
      obtain ⟨h, vis, heq, hle, hvis, _, _⟩ := overflowLoop_run fits vis0.length
      refine ⟨h, vis, ?_, ?_, ?_, ?_, ?_⟩
      · rw [runOverflowEffect]
        simpa using heq
      · intro _
        rw [hvis]
        exact countP_hidden_hiddenState _ _
      · intro hc
        cases hc
      · rw [overflowBadgeOf_renderValue]
        by_cases hz : (buildMap getId values).length = 0
        · have hh0 : h = 0 := by
            rw [hlen, hz] at hle
            omega
          simp [hz, hh0]
        · simp [hz, hsw]
      · intro b
        exact ⟨rfl, rfl, rfl⟩

/-- C4 witness: the general theorem applied to one selected value, `cutoff`
behavior, closed popover, and a measurement that never fits: the effect
hides the single badge, reports 1, and the render shows a `+1` badge. -/
theorem claim_C4_witness :
    runOverflowEffect (shouldWrap OverflowBehavior.cutoff false)
      (fun _ => false) [true] = (1, [false]) ∧
    overflowBadgeOf (renderValue (fun p : String × Nat => p.1)
      (fun p (_ : Bool) => p.2) [("a", 1)] none true OverflowBehavior.cutoff
      false 1) = some 1 := by
  obtain ⟨h, vis, heq, hc1, hc2, hc3, hc4⟩ :=
    claim_C4 (fun p : String × Nat => p.1) (fun p (_ : Bool) => p.2)
      [("a", 1)] none true OverflowBehavior.cutoff false (fun _ => false)
      [true] (by decide)
  have hval : runOverflowEffect (shouldWrap OverflowBehavior.cutoff false)
      (fun _ => false) [true] = (1, [false]) := by decide
  refine ⟨hval, ?_⟩
  injection hval.symm.trans heq with e1 e2
  rw [← e1] at hc3
  simpa using hc3

/-- C5: for a non-empty selection, MultiSelectValue renders exactly one
badge per entry of the selected map: as many badges as map entries, badge
ids in map insertion order — the `values` ids deduplicated keeping
first occurrences — and each badge shows `renderItem(value, true)` for the
value stored under its id; with `clickToRemove` on, each badge carries a
click handler that stops propagation and toggles the value of that badge, which
removes every element with that id from the reported selection. -/
theorem claim_C5 {T R : Type} (getId : T → String) (renderItem : T → Bool → R)
    (values : List T) (placeholderText : Option String) (clickToRemove : Bool)
    (behavior : OverflowBehavior) (isOpen : Bool) (oa : Nat)
    (hne : values ≠ []) :
    ∃ items ov,
      renderValue getId renderItem values placeholderText clickToRemove
          behavior isOpen oa = ValueView.badges items ov ∧
      items.length = (buildMap getId values).length ∧
      items.map BadgeView.id = firstOccurrenceIds (values.map getId) ∧
      (∀ b ∈ items, ∃ w : T,
        mapGet? (buildMap getId values) b.id = some w ∧
        b.content = renderItem w true ∧
        b.onClick = (if clickToRemove then some ⟨true, w⟩ else none) ∧
        b.showRemoveIcon = clickToRemove ∧
        (clickToRemove = true →
          ∀ u ∈ toggleValue getId values w, getId u ≠ getId w)) := by
  have hmne : buildMap getId values ≠ [] := fun hc =>
    hne ((buildMap_eq_nil_iff getId values).mp hc)
  have hlz : ¬ (buildMap getId values).length = 0 := by
    simpa [List.length_eq_zero] using hmne
  refine ⟨(buildMap getId values).map (fun e =>
      { id := e.1
        content := renderItem e.2 true
        onClick := if clickToRemove then some ⟨true, e.2⟩ else none
        showRemoveIcon := clickToRemove }),
    (if 0 < oa ∧ shouldWrap behavior isOpen = false then some oa else none),
    ?_, List.length_map _ _, ?_, ?_⟩
  · simp [renderValue, hlz]
  · rw [List.map_map]
    have hcomp : (BadgeView.id ∘ fun e : String × T =>
        ({ id := e.1
           content := renderItem e.2 true
           onClick := if clickToRemove then some ⟨true, e.2⟩ else none
           showRemoveIcon := clickToRemove } : BadgeView T R)) = Prod.fst := by
      funext e
      rfl
    rw [hcomp]
    exact keys_buildMap getId values
  · intro b hb
    rcases List.mem_map.mp hb with ⟨e, he, rfl⟩
    refine ⟨e.2, ?_, rfl, rfl, rfl, ?_⟩
    · exact mapGet?_eq_of_mem _ e.1 e.2 (by simpa using he)
        (nodup_keys_buildMap getId values)
    · intro _ u hu
      have h1 : e.1 = getId e.2 := wellKeyed_buildMap getId values e he
      refine toggleValue_removes getId values e.2 ?_ u hu
      rw [mapHas_iff, ← h1]
      exact List.mem_map_of_mem Prod.fst he

/-- C5 witness: the theorem applied to the two-element selection
`[("a", 1), ("b", 2)]`, together with the concrete dedup order and lookup
it talks about. -/
theorem claim_C5_witness :
    firstOccurrenceIds (([("a", 1), ("b", 2)] : List (String × Nat)).map
      (fun p => p.1)) = ["a", "b"] ∧
    mapGet? (buildMap (fun p : String × Nat => p.1) [("a", 1), ("b", 2)])
      "a" = some ("a", 1) := by
  obtain ⟨items, ov, hrender, hlen, hids, hall⟩ :=
    claim_C5 (fun p : String × Nat => p.1) (fun p (_ : Bool) => p.2)
      [("a", 1), ("b", 2)] (some "pick") true OverflowBehavior.cutoff
      false 0 (by decide)
  constructor
  · rw [← hids]
    rw [show items.map BadgeView.id =
      firstOccurrenceIds (([("a", 1), ("b", 2)] :
        List (String × Nat)).map (fun p => p.1)) from hids]
    decide
  · decide

/-- C6: the search box is host-delegated: the shown value is the
`inputValue` prop whenever provided and the internal state otherwise; edits
go to `onInputChange` whenever provided and to the internal setter
otherwise; the search input is rendered exactly when the `search` prop is
an object or a truthy boolean, and when rendered it carries that value and
that edit handler. -/
theorem claim_C6 {H : Type} (inputValue : Option String)
    (internalSearch : String) (onInputChange : Option (String → H))
    (setInternalSearch : String → H) (search : SearchProp) :
    (∀ s : String, inputValue = some s →
      searchValue inputValue internalSearch = s) ∧
    (inputValue = none →
      searchValue inputValue internalSearch = internalSearch) ∧
    (∀ f : String → H, onInputChange = some f →
      setSearchValue onInputChange setInternalSearch = f) ∧
    (onInputChange = none →
      setSearchValue onInputChange setInternalSearch = setInternalSearch) ∧
    ((contentSearchInput search (searchValue inputValue internalSearch)
        (setSearchValue onInputChange setInternalSearch)).isSome =
      canSearch search) ∧
    (canSearch search = true →
      contentSearchInput search (searchValue inputValue internalSearch)
          (setSearchValue onInputChange setInternalSearch) =
        some ⟨searchValue inputValue internalSearch,
          setSearchValue onInputChange setInternalSearch⟩) ∧
    (∀ p e : Option String, canSearch (SearchProp.config p e) = true) ∧
    (∀ b : Bool, canSearch (SearchProp.flag b) = b) := by
  refine ⟨?_, ?_, ?_, ?_, ?_, ?_, fun p e => rfl, fun b => rfl⟩
  · rintro s rfl
    rfl
  · rintro rfl
    rfl
  · rintro f rfl
    rfl
  · rintro rfl
    rfl
  · cases hc : canSearch search with
    | true => simp [contentSearchInput, hc]
    | false => simp [contentSearchInput, hc]
  · intro hc
    simp [contentSearchInput, hc]

/-- C6 witness: the theorem applied at concrete props, with the delegation
hypotheses discharged: a provided `inputValue` wins, a missing one falls
back to internal state, a truthy `search` flag renders the input with that
value and handler, and a false flag is not truthy. -/
theorem claim_C6_witness :
    searchValue (some "host") "mine" = "host" ∧
    searchValue none "mine" = "mine" ∧
    contentSearchInput (SearchProp.flag true) "host" (fun s => s) =
      some ⟨"host", fun s => s⟩ ∧
    canSearch (SearchProp.flag false) = false :=
  ⟨(claim_C6 (some "host") "mine" none (fun s => s)
      (SearchProp.flag true)).1 "host" rfl,
   (claim_C6 none "mine" none (fun s => s) (SearchProp.flag true)).2.1 rfl,
   (claim_C6 (some "host") "mine" none (fun s => s)
      (SearchProp.flag true)).2.2.2.2.2.1 rfl,
   (claim_C6 (some "host") "mine" none (fun s => s)
      (SearchProp.flag false)).2.2.2.2.2.2.2 false⟩

/-- C7 counterexample: toggling twice is not an involution on the id-keyed
map. With `values = [("a", 0)]` (one entry under id `"a"`) and
`v = ("a", 1)` (same id, different value), the first toggle removes the
entry and the second inserts `v`, so after two toggles id `"a"` maps to
`("a", 1)` instead of the original `("a", 0)`. -/
theorem claim_C7_counterexample :
    toggleValue (fun p : String × Nat => p.1)
        (toggleValue (fun p : String × Nat => p.1) [("a", 0)] ("a", 1))
        ("a", 1) = [("a", 1)] ∧
    mapGet? (buildMap (fun p : String × Nat => p.1)
        (toggleValue (fun p : String × Nat => p.1)
          (toggleValue (fun p : String × Nat => p.1) [("a", 0)] ("a", 1))
          ("a", 1))) "a" ≠
      mapGet? (buildMap (fun p : String × Nat => p.1) [("a", 0)]) "a" := by
  decide

/-- C7 amended: toggling twice preserves the id set of the selection (the
keys are a permutation of the originals). When `v` was not selected, the
id-keyed map after two toggles is exactly the original one and — if the
`values` list has no duplicate ids — the reported list is exactly the
original list. When `v` was selected, the map after two toggles is the
original with the entry under `getId v` moved to the end and its value
replaced by `v` itself (which may differ from the originally stored value
of that id). -/
theorem claim_C7_amended {T : Type} (getId : T → String) (values : List T)
    (v : T) :
    List.Perm
      (keys (buildMap getId
        (toggleValue getId (toggleValue getId values v) v)))
      (keys (buildMap getId values)) ∧
    (mapHas (buildMap getId values) (getId v) = false →
      buildMap getId (toggleValue getId (toggleValue getId values v) v) =
        buildMap getId values ∧
      ((values.map getId).Nodup →
        toggleValue getId (toggleValue getId values v) v = values)) ∧
    (mapHas (buildMap getId values) (getId v) = true →
      buildMap getId (toggleValue getId (toggleValue getId values v) v) =
        mapDelete (buildMap getId values) (getId v) ++ [(getId v, v)]) := by
  have hw := wellKeyed_buildMap getId values
  have hn := nodup_keys_buildMap getId values
  have h1 : buildMap getId (toggleValue getId values v) =
      if mapHas (buildMap getId values) (getId v)
      then mapDelete (buildMap getId values) (getId v)
      else buildMap getId values ++ [(getId v, v)] :=
    buildMap_toggleMap getId _ v hw hn
  have h2 : buildMap getId (toggleValue getId (toggleValue getId values v) v)
      = if mapHas (buildMap getId (toggleValue getId values v)) (getId v)
        then mapDelete (buildMap getId (toggleValue getId values v)) (getId v)
        else buildMap getId (toggleValue getId values v) ++ [(getId v, v)] :=
    buildMap_toggleMap getId _ v (wellKeyed_buildMap getId _)
      (nodup_keys_buildMap getId _)
  cases hb : mapHas (buildMap getId values) (getId v) with
  | false =>
      have hm1 : buildMap getId (toggleValue getId values v) =
          buildMap getId values ++ [(getId v, v)] := by
        rw [h1, hb]
        simp
      have hhas1 : mapHas (buildMap getId (toggleValue getId values v))
          (getId v) = true := by
        rw [hm1, mapHas_append]
        simp [mapHas]
      have hdel : mapDelete (buildMap getId (toggleValue getId values v))
          (getId v) = buildMap getId values := by
        rw [hm1]
        exact mapDelete_concat_of_not_has _ _ _ hb
      have hfinal : buildMap getId
          (toggleValue getId (toggleValue getId values v) v) =
          buildMap getId values := by
        rw [h2, hhas1]
        simp [hdel]
      refine ⟨by rw [hfinal], ?_, ?_⟩
      · intro _
        refine ⟨hfinal, ?_⟩
        intro hnodup
        have htwice : toggleValue getId (toggleValue getId values v) v =
            mapValues (mapDelete
              (buildMap getId (toggleValue getId values v)) (getId v)) := by
          rw [toggleValue, toggleMap]
          simp only [hhas1, if_true]
        rw [htwice, hdel]
        exact mapValues_buildMap_of_nodup getId values hnodup
      · intro hc
        exact absurd hc (by simp [hb])
  | true =>
      have hm1 : buildMap getId (toggleValue getId values v) =
          mapDelete (buildMap getId values) (getId v) := by
        rw [h1, hb]
        simp
      have hhas1 : mapHas (buildMap getId (toggleValue getId values v))
          (getId v) = false := by
        rw [hm1]
        exact mapHas_mapDelete_self _ _ hn
      have hfinal : buildMap getId
          (toggleValue getId (toggleValue getId values v) v) =
          mapDelete (buildMap getId values) (getId v) ++ [(getId v, v)] := by
        rw [h2, hhas1]
        simp [hm1]
      refine ⟨?_, ?_, fun _ => hfinal⟩
      · rw [hfinal]
        have hid : getId v ∈ keys (buildMap getId values) :=
          (mapHas_iff _ _).mp hb
        have e : keys (mapDelete (buildMap getId values) (getId v) ++
            [(getId v, v)]) =
            keys (mapDelete (buildMap getId values) (getId v)) ++
              [getId v] := by
          simp [keys]
        rw [e, keys_mapDelete]
        exact (List.perm_append_singleton _ _).trans
          (List.perm_cons_erase hid).symm
      · intro hc
        exact absurd hc (by simp [hb])

/-- C7 amended witness: the amended theorem applied with `v` not selected
and duplicate-free ids: two toggles restore both the map and the exact
list. -/
theorem claim_C7_amended_witness :
    buildMap (fun p : String × Nat => p.1)
        (toggleValue (fun p : String × Nat => p.1)
          (toggleValue (fun p : String × Nat => p.1) [("a", 1)] ("b", 2))
          ("b", 2)) =
      buildMap (fun p : String × Nat => p.1) [("a", 1)] ∧
    toggleValue (fun p : String × Nat => p.1)
        (toggleValue (fun p : String × Nat => p.1) [("a", 1)] ("b", 2))
        ("b", 2) = [("a", 1)] :=
  ⟨((claim_C7_amended (fun p : String × Nat => p.1) [("a", 1)]
      ("b", 2)).2.1 (by decide)).1,
   ((claim_C7_amended (fun p : String × Nat => p.1) [("a", 1)]
      ("b", 2)).2.1 (by decide)).2 (by decide)⟩

/-- C8: when the `values` prop builds an empty selected map (equivalently,
is the empty list), MultiSelectValue renders only the placeholder — no
badges and no overflow badge — for every overflow behavior, open state and
stored overflow amount. -/
theorem claim_C8 {T R : Type} (getId : T → String) (renderItem : T → Bool → R)
    (placeholderText : Option String) (clickToRemove : Bool)
    (behavior : OverflowBehavior) (isOpen : Bool) (oa : Nat)
    (values : List T) (h : buildMap getId values = []) :
    renderValue getId renderItem values placeholderText clickToRemove
        behavior isOpen oa = ValueView.placeholder placeholderText ∧
    values = [] := by
  refine ⟨?_, (buildMap_eq_nil_iff getId values).mp h⟩
  simp [renderValue, h]

/-- C8 witness: the theorem applied to the empty selection with wrapping
behavior, an open popover and a stale positive overflow amount. -/
theorem claim_C8_witness :
    renderValue (fun p : String × Nat => p.1) (fun p (_ : Bool) => p.2)
        ([] : List (String × Nat)) (some "empty") true OverflowBehavior.wrap
        true 5 = ValueView.placeholder (some "empty") ∧
    ([] : List (String × Nat)) = [] :=
  claim_C8 (fun p : String × Nat => p.1) (fun p (_ : Bool) => p.2)
    (some "empty") true OverflowBehavior.wrap true 5 [] rfl

/-- C9: `toggleValue` mutates none of its inputs: after the call every heap
cell that existed before — in particular the selected map at `selRef` and
anything else reachable — is unchanged (the new heap extends the old one by
exactly the one freshly allocated copy), and the reported array is computed
from that fresh copy, matching the pure toggle of the original map. -/
theorem claim_C9 {T : Type} (getId : T → String) (h : MapHeap T)
    (selRef : Nat) (v : T) :
    (toggleValueHeap getId h selRef v).1.cells.take h.cells.length =
      h.cells ∧
    (∀ j : Nat, j < h.cells.length →
      heapGet (toggleValueHeap getId h selRef v).1 j = heapGet h j) ∧
    (toggleValueHeap getId h selRef v).1.cells.length =
      h.cells.length + 1 ∧
    (toggleValueHeap getId h selRef v).2 =
      toggleMap getId (heapGet h selRef) v := by
  obtain ⟨hcells, hout⟩ := toggleValueHeap_spec getId h selRef v
  refine ⟨?_, ?_, ?_, hout⟩
  · rw [hcells]
    exact List.take_left _ _
  · intro j hj
    rw [heapGet, hcells, List.getD_append _ _ _ _ hj]
    rfl
  · rw [hcells]
    simp

/-- C9 witness: a one-cell heap holding the selected map for `[("a", 1)]`;
after toggling `("a", 1)` the original cell still holds the same map and
the reported list is the pure toggle result. -/
theorem claim_C9_witness :
    heapGet (toggleValueHeap (fun p : String × Nat => p.1)
        ⟨[[("a", ("a", 1))]]⟩ 0 ("a", 1)).1 0 =
      heapGet (⟨[[("a", ("a", 1))]]⟩ : MapHeap (String × Nat)) 0 ∧
    (toggleValueHeap (fun p : String × Nat => p.1)
        ⟨[[("a", ("a", 1))]]⟩ 0 ("a", 1)).2 =
      toggleMap (fun p : String × Nat => p.1)
        (heapGet (⟨[[("a", ("a", 1))]]⟩ : MapHeap (String × Nat)) 0)
        ("a", 1) :=
  ⟨(claim_C9 (fun p : String × Nat => p.1) ⟨[[("a", ("a", 1))]]⟩ 0
      ("a", 1)).2.1 0 (by decide),
   (claim_C9 (fun p : String × Nat => p.1) ⟨[[("a", ("a", 1))]]⟩ 0
      ("a", 1)).2.2.2⟩

/-- C10: the selected map never holds two entries with one id; on duplicate
ids in `values` the stored value is the last occurrence (the last matching
element of the list); a badge render contains exactly one badge per present
id; and one toggle of a value whose id occurs in `values` removes every
element with that id from the reported selection. -/
theorem claim_C10 {T R : Type} (getId : T → String)
    (renderItem : T → Bool → R) (values : List T)
    (placeholderText : Option String) (clickToRemove : Bool)
    (behavior : OverflowBehavior) (isOpen : Bool) (oa : Nat) (v : T) :
    (keys (buildMap getId values)).Nodup ∧
    (∀ k : String, mapGet? (buildMap getId values) k =
      values.reverse.find? (fun w => getId w == k)) ∧
    (∀ (items : List (BadgeView T R)) (ov : Option Nat),
      renderValue getId renderItem values placeholderText clickToRemove
          behavior isOpen oa = ValueView.badges items ov →
      ∀ k : String, k ∈ values.map getId →
        (items.map BadgeView.id).count k = 1) ∧
    (getId v ∈ values.map getId →
      ∀ u ∈ toggleValue getId values v, getId u ≠ getId v) := by
  refine ⟨nodup_keys_buildMap getId values,
    mapGet?_buildMap getId values, ?_, ?_⟩
  · intro items ov hrender k hk
    by_cases hz : (buildMap getId values).length = 0
    · rw [renderValue] at hrender
      simp [hz] at hrender
    · have hr2 : renderValue getId renderItem values placeholderText
          clickToRemove behavior isOpen oa =
          ValueView.badges ((buildMap getId values).map (fun e =>
            { id := e.1
              content := renderItem e.2 true
              onClick := if clickToRemove then some ⟨true, e.2⟩ else none
              showRemoveIcon := clickToRemove }))
            (if 0 < oa ∧ shouldWrap behavior isOpen = false then some oa
             else none) := by
        simp [renderValue, hz]
      rw [hr2] at hrender
      injection hrender with hitems hov
      rw [← hitems, List.map_map]
      have hcomp : (BadgeView.id ∘ fun e : String × T =>
          ({ id := e.1
             content := renderItem e.2 true
             onClick := if clickToRemove then some ⟨true, e.2⟩ else none
             showRemoveIcon := clickToRemove } : BadgeView T R)) =
          Prod.fst := by
        funext e
        rfl
      rw [hcomp]
      exact List.count_eq_one_of_mem (nodup_keys_buildMap getId values)
        ((mem_keys_buildMap getId values k).mpr hk)
  · intro hmem u hu
    exact toggleValue_removes getId values v
      ((mapHas_buildMap getId values (getId v)).mpr hmem) u hu

/-- C10 witness: with the duplicate-id list `[("a", 1), ("a", 2)]` the map
keeps only the last occurrence under `"a"`, and one toggle of a value with
id `"a"` empties the reported selection. -/
theorem claim_C10_witness :
    mapGet? (buildMap (fun p : String × Nat => p.1) [("a", 1), ("a", 2)])
      "a" = some ("a", 2) ∧
    toggleValue (fun p : String × Nat => p.1) [("a", 1), ("a", 2)]
      ("a", 9) = [] := by
  have happ := claim_C10 (fun p : String × Nat => p.1)
    (fun p (_ : Bool) => p.2) [("a", 1), ("a", 2)] none true
    OverflowBehavior.cutoff false 0 ("a", 9)
  constructor
  · rw [happ.2.1 "a"]
    decide
  · decide
